/-
  Verification of the JSON-RPC WebSocket client core
  (src/clients/typescript/path-types.ts, class JrpcWebSocketClient and the
  domain wrappers built on it).

  The client is embedded as a small-step event machine: the mutable fields of
  the `JrpcWebSocketClient` instance become a `ClientState`, and each handler
  entry point of the class (the `request`/`batch` public methods, the message
  receive handler, a request-timeout callback firing, the public `disconnect`
  method, and the socket `onclose` event handler) becomes one `Event` whose
  effect on the state is given by `step`.  Promise settlements and console
  warnings are recorded in an effect log, so that properties about how often
  and with which error a caller's promise is settled become properties of the
  log of a run.
-/
import Mathlib

namespace PxApi

/-- JSON values, as carried in `params` / `result` fields. -/
inductive Json where
  | null : Json
  | bool : Bool → Json
  | num : Int → Json
  | str : String → Json
  | arr : List Json → Json
  | obj : List (String × Json) → Json

/-- The `error` member of a `JrpcResponse` (interface `JrpcError`). -/
structure JrpcErrorV where
  code : Int
  message : String
  data : Option Json

/-- A decoded single incoming message: either a response envelope
(the `id` field is present; `result` and `error` are both optional members,
per interface `JrpcResponse`) or a notification (no `id` field, per
interface `JrpcNotification`).  Presence of `id` is the sole discriminator,
mirroring the `'id' in message` test in `handleSingleMessage`. -/
inductive InMsg where
  | response : Nat → Option Json → Option JrpcErrorV → InMsg
  | notification : String → Json → InMsg

/-- A decoded incoming frame: `handleMessage` distinguishes a top-level
array (batch of responses, handled element by element) from a single
message. -/
inductive Incoming where
  | single : InMsg → Incoming
  | batchIn : List InMsg → Incoming

/-- How a pending entry was created: `request()` wraps resolve/reject so
that they clear the per-request timeout; `batch()` stores the bare
resolve/reject of each element's promise and arms no timeout. -/
inductive PKind where
  | fromRequest : PKind
  | fromBatch : PKind
deriving DecidableEq

/-- One entry of the `pendingRequests` map. -/
structure PEntry where
  kind : PKind
  method : String
deriving DecidableEq

/-- `WebSocketState` of the client. -/
inductive WsState where
  | connecting : WsState
  | connected : WsState
  | disconnected : WsState
  | error : WsState
deriving DecidableEq

/-- The mutable fields of a `JrpcWebSocketClient` instance.
`pending` is the `pendingRequests` map as an insertion-ordered association
list; `timers` records the armed (not yet fired, not yet cleared)
per-request timeout handles, keyed by request id and remembering the
`method` string captured by the timeout closure; `reconnectTimerArmed`
says whether `reconnectTimer` is non-null; `hasSocket` says whether
`this.ws` is non-null; `optReconnect` is `options.reconnect`. -/
structure ClientState where
  requestId : Nat
  pending : List (Nat × PEntry)
  timers : List (Nat × String)
  wsState : WsState
  reconnectTimerArmed : Bool
  hasSocket : Bool
  optReconnect : Bool
deriving DecidableEq

/-- A settlement of one caller-visible promise, keyed by request id.
A rejection carries the `Error` message string the code constructs. -/
inductive Settlement where
  | resolved : Nat → Option Json → Settlement
  | rejected : Nat → String → Settlement

/-- Observable effects of one step.  `callbackInvoked` expresses the
dispatch of a subscription callback; the client under embedding never
emits it (the notification branch of `handleSingleMessage` is a bare
`return`), and the constructor exists so that claims about callback
dispatch can be stated and refuted. -/
inductive Effect where
  | settle : Settlement → Effect
  | warnUnknownId : Nat → Effect
  | callbackInvoked : String → Json → Effect

/-- Events: the handler entry points of the class. -/
inductive Event where
  | req : String → Json → Event
  | batchReq : List (String × Json) → Event
  | recv : Incoming → Event
  | timeoutFire : Nat → Event
  | disconnectCall : Event
  | wsClose : Event

/-- First value stored under a key in an association list
(`Map.prototype.get`). -/
def findEntry {β : Type} : List (Nat × β) → Nat → Option β
  | [], _ => none
  | (k, v) :: rest, id => if k = id then some v else findEntry rest id

/-- Remove a key from an association list (`Map.prototype.delete`;
on lists whose keys are distinct this removes the one binding). -/
def removeEntry {β : Type} : List (Nat × β) → Nat → List (Nat × β)
  | [], _ => []
  | (k, v) :: rest, id =>
      if k = id then removeEntry rest id else (k, v) :: removeEntry rest id

/-- Keys of an association list, in insertion order. -/
def keysOf {β : Type} (l : List (Nat × β)) : List Nat := l.map Prod.fst

/-- The error message built by `disconnect()` for every pending request:
`new Error('Connection closed')`. -/
def connClosedMsg : String := "Connection closed"

/-- The error message built by the `request()` timeout callback:
`new Error(\x60Request timeout: ${method}\x60)`. -/
def timeoutMsg (method : String) : String := "Request timeout: " ++ method

/-- The error message built for a server error response:
`new Error(\x60${message.error.message} (code: ${message.error.code})\x60)`. -/
def serverErrMsg (message : String) (code : Int) : String :=
  message ++ " (code: " ++ toString code ++ ")"

/-- `handleSingleMessage`: a message without `id` is a notification and is
ignored by the base class; a response is looked up in `pendingRequests` —
an unknown id logs a warning and does nothing else; a known id is deleted
from the map and its promise is rejected (when the `error` member is
present) or resolved with the `result` member (possibly absent =
`undefined`).  Settling a `request()`-created entry runs its wrapped
resolve/reject, which clears that request's timeout; a `batch()` entry has
no timeout keyed by its id, so the same timer removal is a no-op for it. -/
def handleSingle (s : ClientState) (m : InMsg) : ClientState × List Effect :=
  match m with
  | .notification _ _ => (s, [])
  | .response id result err =>
    match findEntry s.pending id with
    | none => (s, [.warnUnknownId id])
    | some _ =>
      let s1 := { s with pending := removeEntry s.pending id,
                         timers := removeEntry s.timers id }
      match err with
      | some e => (s1, [.settle (.rejected id (serverErrMsg e.message e.code))])
      | none => (s1, [.settle (.resolved id result)])

/-- `handleMessage` on a decoded batch frame: handle each element in
order. -/
def handleMany (s : ClientState) : List InMsg → ClientState × List Effect
  | [] => (s, [])
  | m :: rest =>
    let p := handleSingle s m
    let q := handleMany p.fst rest
    (q.fst, p.snd ++ q.snd)

/-- `handleMessage` after JSON parsing: array frames are batches. -/
def handleMessage (s : ClientState) : Incoming → ClientState × List Effect
  | .single m => handleSingle s m
  | .batchIn ms => handleMany s ms

/-- `request(method, params)`: assign `++this.requestId`, arm the timeout,
register the pending entry, send the envelope. -/
def requestStep (s : ClientState) (method : String) : ClientState × List Effect :=
  let id := s.requestId + 1
  ({ s with requestId := id,
            pending := s.pending ++ [(id, ⟨.fromRequest, method⟩)],
            timers := s.timers ++ [(id, method)] }, [])

/-- The pending entries created by `batch(requests)`: one fresh id per
element, assigned by `++this.requestId` left to right, no timeout. -/
def batchEntries (base : Nat) : List (String × Json) → List (Nat × PEntry)
  | [] => []
  | (m, _) :: rest => (base + 1, ⟨.fromBatch, m⟩) :: batchEntries (base + 1) rest

/-- `batch(requests)`: register one pending entry per element and send one
array frame. -/
def batchStep (s : ClientState) (reqs : List (String × Json)) :
    ClientState × List Effect :=
  ({ s with requestId := s.requestId + reqs.length,
            pending := s.pending ++ batchEntries s.requestId reqs }, [])

/-- A `request()` timeout callback firing.  It can only fire while the
timer is still armed, i.e. not yet cleared by a settlement of its entry;
the callback deletes the id from `pendingRequests` and rejects with the
timeout error (the fired timer is no longer armed afterwards). -/
def timeoutStep (s : ClientState) (id : Nat) : ClientState × List Effect :=
  match findEntry s.timers id with
  | none => (s, [])
  | some method =>
      ({ s with pending := removeEntry s.pending id,
                timers := removeEntry s.timers id },
       [.settle (.rejected id (timeoutMsg method))])

/-- Clearing of per-request timeouts performed by `disconnect()`: each
pending entry created by `request()` is rejected through its wrapper,
which clears that request's timeout; `batch()` entries reject without
clearing (they armed no timer). -/
def clearTimersOf : List (Nat × String) → List (Nat × PEntry) → List (Nat × String)
  | ts, [] => ts
  | ts, (id, e) :: rest =>
      clearTimersOf (if e.kind = PKind.fromRequest then removeEntry ts id else ts) rest

/-- `disconnect()`: clear the reconnect timer, close and drop the socket,
set state `disconnected`, reject every pending request with
`Connection closed` (in map insertion order) and clear the map. -/
def disconnectStep (s : ClientState) : ClientState × List Effect :=
  ({ s with reconnectTimerArmed := false,
            hasSocket := false,
            wsState := .disconnected,
            pending := [],
            timers := clearTimersOf s.timers s.pending },
   s.pending.map (fun p => .settle (.rejected p.fst connClosedMsg)))

/-- The socket `onclose` handler: set state `disconnected`, then
`handleDisconnect()`, which arms the reconnect timer whenever
`options.reconnect` is set and the state is not `error` — the state was
just set to `disconnected`, so the guard is passed whenever reconnection
is enabled, including for the close caused by `disconnect()` itself
(setting `this.ws = null` does not detach the handler from the socket
object). -/
def wsCloseStep (s : ClientState) : ClientState × List Effect :=
  let s1 := { s with wsState := WsState.disconnected }
  if s1.optReconnect = true ∧ s1.wsState ≠ WsState.error then
    ({ s1 with reconnectTimerArmed := true }, [])
  else (s1, [])

/-- One step of the machine. -/
def step (s : ClientState) : Event → ClientState × List Effect
  | .req method _ => requestStep s method
  | .batchReq reqs => batchStep s reqs
  | .recv inc => handleMessage s inc
  | .timeoutFire id => timeoutStep s id
  | .disconnectCall => disconnectStep s
  | .wsClose => wsCloseStep s

/-- A run: fold `step` over a list of events, concatenating the effect
logs. -/
def run (s : ClientState) : List Event → ClientState × List Effect
  | [] => (s, [])
  | e :: rest =>
    let p := step s e
    let q := run p.fst rest
    (q.fst, p.snd ++ q.snd)

/-- A freshly constructed client (before any connection): counter at 0,
empty maps, no timers, no socket. -/
def initState (reconnect : Bool) : ClientState :=
  { requestId := 0, pending := [], timers := [], wsState := .disconnected,
    reconnectTimerArmed := false, hasSocket := false, optReconnect := reconnect }

/-- Does this effect settle the promise of request `id`? -/
def Effect.settlesId (id : Nat) : Effect → Bool
  | .settle (.resolved i _) => i = id
  | .settle (.rejected i _) => i = id
  | _ => false

/-- Is this effect any promise settlement? -/
def Effect.isSettle : Effect → Bool
  | .settle _ => true
  | _ => false

/-- Is this effect an invocation of a subscription callback? -/
def Effect.isCallback : Effect → Bool
  | .callbackInvoked _ _ => true
  | _ => false

/-- How many effects of a log settle the promise of request `id`. -/
def countSettles (log : List Effect) (id : Nat) : Nat :=
  (log.filter (Effect.settlesId id)).length

/-- Ids of pending entries, in map insertion order. -/
def pendingIds (s : ClientState) : List Nat := keysOf s.pending

/-- Every id in the pending map (and every armed timer id) was assigned by
the `++this.requestId` counter, so is positive and at most the counter.
Armed timers moreover belong to a pending `request()` entry whose stored
method the timeout closure captured. -/
def Invariant (s : ClientState) : Prop :=
  (∀ id ∈ pendingIds s, id ≤ s.requestId) ∧
  (pendingIds s).Nodup ∧
  (∀ p ∈ s.timers, findEntry s.pending p.fst = some ⟨PKind.fromRequest, p.snd⟩)

/-- The outcome of one element's promise, as read off an effect log: the
time is the index of its settlement in the log. -/
inductive POutcome where
  | unsettled : POutcome
  | resolvedAt : Nat → Option Json → POutcome
  | rejectedAt : Nat → String → POutcome

/-- Scan a log for the first settlement of `id`. -/
def outcomeAux (id : Nat) : Nat → List Effect → POutcome
  | _, [] => .unsettled
  | t, e :: rest =>
    match e with
    | .settle (.resolved i v) =>
        if i = id then .resolvedAt t v else outcomeAux id (t + 1) rest
    | .settle (.rejected i m) =>
        if i = id then .rejectedAt t m else outcomeAux id (t + 1) rest
    | _ => outcomeAux id (t + 1) rest

/-- The outcome of request `id`'s promise after the effects `log`. -/
def outcomeOf (log : List Effect) (id : Nat) : POutcome :=
  outcomeAux id 0 log

/-- The combined promise returned by `batch` (`Promise.all`): pending,
resolved with the per-element values, or rejected with the message of the
first rejection. -/
inductive BatchResult where
  | stillPending : BatchResult
  | resolvedAll : Nat → List (Option Json) → BatchResult
  | rejectedFirst : Nat → String → BatchResult

/-- The earliest rejection among the element outcomes, if any
(`Promise.all` adopts the first rejection in time). -/
def earliestRejection : List POutcome → Option (Nat × String)
  | [] => none
  | .rejectedAt t m :: rest =>
      match earliestRejection rest with
      | some (t', m') => if t' < t then some (t', m') else some (t, m)
      | none => some (t, m)
  | _ :: rest => earliestRejection rest

/-- If every element has resolved, the time the last one resolved and the
values in element order. -/
def allResolved : List POutcome → Option (Nat × List (Option Json))
  | [] => some (0, [])
  | .resolvedAt t v :: rest =>
      match allResolved rest with
      | some (t', vs) => some (max t t', v :: vs)
      | none => none
  | _ :: _ => none

/-- `Promise.all` over the element outcomes: rejects with the first
rejection as soon as it happens; otherwise resolves, once every element
has resolved, with the values in element (input) order. -/
def promiseAll (outs : List POutcome) : BatchResult :=
  match earliestRejection outs with
  | some (t, m) => .rejectedFirst t m
  | none =>
    match allResolved outs with
    | some (t, vs) => .resolvedAll t vs
    | none => .stillPending

/-- The settlement time of an element outcome (0 if unsettled). -/
def ptime : POutcome → Nat
  | .unsettled => 0
  | .resolvedAt t _ => t
  | .rejectedAt t _ => t

/-- The ids `batch(reqs)` assigns when called in state `s`:
`s.requestId + 1, …, s.requestId + reqs.length`, in input order. -/
def batchIds (s : ClientState) (reqs : List (String × Json)) : List Nat :=
  List.range' (s.requestId + 1) reqs.length

/-- The receive event for one success response. -/
def respEvent (p : Nat × Option Json) : Event :=
  .recv (.single (.response p.fst p.snd none))

/-- The effect log produced by delivering the responses `resps` (in their
list order) after `batch(reqs)` was called in state `s`. -/
def batchRun (s : ClientState) (reqs : List (String × Json))
    (resps : List (Nat × Option Json)) : List Effect :=
  (run (step s (.batchReq reqs)).fst (resps.map respEvent)).snd

/-- The outcomes of the element promises of `batch(reqs)`, in input order,
after the responses `resps` have been delivered. -/
def batchOutcomes (s : ClientState) (reqs : List (String × Json))
    (resps : List (Nat × Option Json)) : List POutcome :=
  (batchIds s reqs).map (outcomeOf (batchRun s reqs resps))

/-- The whole safety property carried through a run: the state invariant
plus at-most-once settlement of every id, and the fact that a settled id
is gone from the map and was assigned by the counter. -/
def GoodLog (s : ClientState) (log : List Effect) : Prop :=
  Invariant s ∧
  (∀ id, countSettles log id ≤ 1) ∧
  (∀ id, 0 < countSettles log id → id ∉ pendingIds s ∧ id ≤ s.requestId)

/-- The ids an event assigns by `++this.requestId` when it runs in state
`s`: one for `request()`, one per element for `batch()`. -/
def eventAssigned (s : ClientState) : Event → List Nat
  | .req _ _ => [s.requestId + 1]
  | .batchReq reqs => List.range' (s.requestId + 1) reqs.length
  | _ => []

/-- All ids assigned along a run, in assignment order. -/
def runAssigned (s : ClientState) : List Event → List Nat
  | [] => []
  | e :: rest => eventAssigned s e ++ runAssigned (step s e).fst rest

/-- A connected client with the default options (`reconnect: true`), no
traffic yet: the state right after a successful `connect()` on a fresh
instance. -/
def connState : ClientState :=
  { requestId := 0, pending := [], timers := [], wsState := .connected,
    reconnectTimerArmed := false, hasSocket := true, optReconnect := true }

/-- One `request("ping", {})` issued from the connected state, then the
socket closes unexpectedly before any response. -/
def c1Events : List Event := [.req "ping" (Json.obj []), .wsClose]

/-- `SetupClient.subscribe("setup_update")` (a plain
`request("setup_subscribe", {topic})`), a success response carrying a
subscription id, then an unsolicited `setup_update` notification. -/
def c3Events : List Event :=
  [.req "setup_subscribe" (Json.obj [("topic", Json.str "setup_update")]),
   .recv (.single (.response 1 (some (Json.obj [("subscription_id", Json.str "abc")])) none)),
   .recv (.single (.notification "setup_update"
      (Json.obj [("path", Json.str "/x"), ("value", Json.num 1)])))]

/-- A batch of two from the connected state whose first element receives
an error response while the second never receives one. -/
def c2Events : List Event :=
  [.batchReq [("setup_set", Json.null), ("setup_get", Json.null)],
   .recv (.single (.response 1 none (some ⟨-32602, "Invalid params", none⟩)))]

/-- Two-element batch fixture for the C2 witness. -/
def c2Reqs : List (String × Json) := [("a", Json.null), ("b", Json.null)]

/-- The per-element result values of `c2Reqs`, in input order. -/
def c2Vals : List (Option Json) := [some (Json.str "A"), some (Json.str "B")]

/-- The responses to `c2Reqs`, arriving in reversed order. -/
def c2Resps : List (Nat × Option Json) := [(2, some (Json.str "B")), (1, some (Json.str "A"))]

/-- The state after a single-element `batch([{method: "setup_set", …}])`
from the connected state. -/
def c4State : ClientState := (run connState [.batchReq [("setup_set", Json.null)]]).fst

/-- The state after one `request("a", null)` from the connected state. -/
def c4ReqState : ClientState := (run connState [.req "a" Json.null]).fst

/-- Three outstanding `request()` calls from the connected state. -/
def c7State : ClientState :=
  (run connState [.req "a" Json.null, .req "b" Json.null, .req "c" Json.null]).fst

/-- A request, a two-element batch, and another request, all before any
response. -/
def c8Events : List Event :=
  [.req "a" Json.null, .batchReq [("b", Json.null), ("c", Json.null)], .req "d" Json.null]

/-! ### Association-list lemmas -/

theorem findEntry_nil {β : Type} (k : Nat) : findEntry ([] : List (Nat × β)) k = none := rfl

theorem findEntry_cons {β : Type} (a : Nat) (b : β) (rest : List (Nat × β)) (k : Nat) :
    findEntry ((a, b) :: rest) k = if a = k then some b else findEntry rest k := rfl

theorem removeEntry_cons {β : Type} (a : Nat) (b : β) (rest : List (Nat × β)) (k : Nat) :
    removeEntry ((a, b) :: rest) k
      = if a = k then removeEntry rest k else (a, b) :: removeEntry rest k := rfl

theorem keysOf_cons {β : Type} (a : Nat) (b : β) (rest : List (Nat × β)) :
    keysOf ((a, b) :: rest) = a :: keysOf rest := rfl

theorem findEntry_append_left {β : Type} {l l' : List (Nat × β)} {k : Nat} {v : β}
    (h : findEntry l k = some v) : findEntry (l ++ l') k = some v := by
  induction l with
  | nil => simp [findEntry_nil] at h
  | cons p rest ih =>
      obtain ⟨a, b⟩ := p
      rw [findEntry_cons] at h
      rw [List.cons_append, findEntry_cons]
      split at h
      · next ha => simp [ha, h]
      · next ha => simp [ha, ih h]

theorem findEntry_append_right {β : Type} {l l' : List (Nat × β)} {k : Nat}
    (h : findEntry l k = none) : findEntry (l ++ l') k = findEntry l' k := by
  induction l with
  | nil => simp
  | cons p rest ih =>
      obtain ⟨a, b⟩ := p
      rw [findEntry_cons] at h
      rw [List.cons_append, findEntry_cons]
      split at h
      · exact absurd h (by simp)
      · next ha => simp [ha, ih h]

theorem findEntry_eq_none {β : Type} {l : List (Nat × β)} {k : Nat}
    (h : k ∉ keysOf l) : findEntry l k = none := by
  induction l with
  | nil => rfl
  | cons p rest ih =>
      obtain ⟨a, b⟩ := p
      rw [keysOf_cons, List.mem_cons] at h
      push_neg at h
      rw [findEntry_cons, if_neg (fun hh => h.1 hh.symm)]
      exact ih h.2

theorem mem_of_findEntry {β : Type} {l : List (Nat × β)} {k : Nat} {v : β}
    (h : findEntry l k = some v) : (k, v) ∈ l := by
  induction l with
  | nil => simp [findEntry_nil] at h
  | cons p rest ih =>
      obtain ⟨a, b⟩ := p
      rw [findEntry_cons] at h
      split at h
      · next ha =>
          obtain rfl := ha
          obtain rfl : b = v := by simpa using h
          exact List.mem_cons_self _ _
      · exact List.mem_cons_of_mem _ (ih h)

theorem mem_keysOf_of_findEntry {β : Type} {l : List (Nat × β)} {k : Nat} {v : β}
    (h : findEntry l k = some v) : k ∈ keysOf l :=
  List.mem_map_of_mem Prod.fst (mem_of_findEntry h)

theorem findEntry_isSome_of_mem_keysOf {β : Type} {l : List (Nat × β)} {k : Nat}
    (h : k ∈ keysOf l) : ∃ v, findEntry l k = some v := by
  induction l with
  | nil => simp [keysOf] at h
  | cons p rest ih =>
      obtain ⟨a, b⟩ := p
      rw [findEntry_cons]
      by_cases ha : a = k
      · exact ⟨b, by simp [ha]⟩
      · rw [keysOf_cons, List.mem_cons] at h
        rcases h with h | h
        · exact absurd h.symm ha
        · obtain ⟨v, hv⟩ := ih h
          exact ⟨v, by simp [ha, hv]⟩

theorem findEntry_removeEntry_ne {β : Type} {l : List (Nat × β)} {k j : Nat}
    (h : j ≠ k) : findEntry (removeEntry l k) j = findEntry l j := by
  induction l with
  | nil => rfl
  | cons p rest ih =>
      obtain ⟨a, b⟩ := p
      rw [removeEntry_cons, findEntry_cons]
      by_cases ha : a = k
      · rw [if_pos ha, ih, if_neg (fun hh => h (by rw [← hh, ha]))]
      · rw [if_neg ha, findEntry_cons, ih]

theorem findEntry_removeEntry_self {β : Type} (l : List (Nat × β)) (k : Nat) :
    findEntry (removeEntry l k) k = none := by
  induction l with
  | nil => rfl
  | cons p rest ih =>
      obtain ⟨a, b⟩ := p
      rw [removeEntry_cons]
      by_cases ha : a = k
      · rw [if_pos ha]
        exact ih
      · rw [if_neg ha, findEntry_cons, if_neg ha]
        exact ih

theorem mem_removeEntry {β : Type} {l : List (Nat × β)} {k : Nat} {p : Nat × β}
    (h : p ∈ removeEntry l k) : p ∈ l ∧ p.fst ≠ k := by
  induction l with
  | nil => simp [removeEntry] at h
  | cons q rest ih =>
      obtain ⟨a, b⟩ := q
      rw [removeEntry_cons] at h
      by_cases ha : a = k
      · rw [if_pos ha] at h
        have := ih h
        exact ⟨List.mem_cons_of_mem _ this.1, this.2⟩
      · rw [if_neg ha, List.mem_cons] at h
        rcases h with h | h
        · obtain rfl := h
          exact ⟨List.mem_cons_self _ _, ha⟩
        · have := ih h
          exact ⟨List.mem_cons_of_mem _ this.1, this.2⟩

theorem removeEntry_sublist {β : Type} (l : List (Nat × β)) (k : Nat) :
    List.Sublist (removeEntry l k) l := by
  induction l with
  | nil => simp [removeEntry]
  | cons p rest ih =>
      obtain ⟨a, b⟩ := p
      rw [removeEntry_cons]
      by_cases ha : a = k
      · rw [if_pos ha]
        exact ih.cons _
      · rw [if_neg ha]
        exact ih.cons₂ _

theorem keysOf_removeEntry_sublist {β : Type} (l : List (Nat × β)) (k : Nat) :
    List.Sublist (keysOf (removeEntry l k)) (keysOf l) :=
  (removeEntry_sublist l k).map Prod.fst

theorem keysOf_append {β : Type} (l l' : List (Nat × β)) :
    keysOf (l ++ l') = keysOf l ++ keysOf l' := by
  simp [keysOf]

theorem keysOf_batchEntries (reqs : List (String × Json)) (base : Nat) :
    keysOf (batchEntries base reqs) = List.range' (base + 1) reqs.length := by
  induction reqs generalizing base with
  | nil => rfl
  | cons r rest ih =>
      obtain ⟨m, pr⟩ := r
      rw [batchEntries, keysOf_cons, List.length_cons, List.range'_succ, ih]

/-! ### Settlement counting -/

theorem countSettles_nil (id : Nat) : countSettles [] id = 0 := rfl

theorem countSettles_append (l l' : List Effect) (id : Nat) :
    countSettles (l ++ l') id = countSettles l id + countSettles l' id := by
  simp [countSettles, List.filter_append]

theorem countSettles_warn (i id : Nat) : countSettles [.warnUnknownId i] id = 0 := rfl

theorem countSettles_resolved (i id : Nat) (v : Option Json) :
    countSettles [.settle (.resolved i v)] id = if i = id then 1 else 0 := by
  by_cases h : i = id <;> simp [countSettles, Effect.settlesId, h]

theorem countSettles_rejected (i id : Nat) (m : String) :
    countSettles [.settle (.rejected i m)] id = if i = id then 1 else 0 := by
  by_cases h : i = id <;> simp [countSettles, Effect.settlesId, h]

theorem countSettles_map_rejected (l : List (Nat × PEntry)) (msg : String) (id : Nat) :
    countSettles (l.map (fun p => Effect.settle (.rejected p.fst msg))) id
      = (keysOf l).count id := by
  induction l with
  | nil => rfl
  | cons p rest ih =>
      have : countSettles
          ((p :: rest).map (fun p => Effect.settle (.rejected p.fst msg))) id
          = countSettles [Effect.settle (.rejected p.fst msg)] id
            + countSettles (rest.map (fun p => Effect.settle (.rejected p.fst msg))) id := by
        simpa using countSettles_append [Effect.settle (.rejected p.fst msg)]
          (rest.map (fun p => Effect.settle (.rejected p.fst msg))) id
      rw [this, countSettles_rejected, ih, keysOf_cons, List.count_cons]
      by_cases h : p.fst = id
      case pos => simp [h]; omega
      case neg => simp [h]

theorem handleSingle_good {s : ClientState} {log : List Effect}
    (h : GoodLog s log) (m : InMsg) :
    GoodLog (handleSingle s m).fst (log ++ (handleSingle s m).snd) := by
  obtain ⟨⟨hbound, hnodup, htimer⟩, hcount, hgone⟩ := h
  match m with
  | .notification mth p => simpa [handleSingle] using ⟨⟨hbound, hnodup, htimer⟩, hcount, hgone⟩
  | .response id result err =>
    rcases hfind : findEntry s.pending id with _ | entry
    · have : handleSingle s (.response id result err) = (s, [.warnUnknownId id]) := by
        simp [handleSingle, hfind]
      rw [this]
      refine ⟨⟨hbound, hnodup, htimer⟩, ?_, ?_⟩
      · intro i
        rw [countSettles_append, countSettles_warn]
        simpa using hcount i
      · intro i hi
        rw [countSettles_append, countSettles_warn] at hi
        exact hgone i (by simpa using hi)
    · -- the pending entry is consumed
      have hmemk : id ∈ pendingIds s := mem_keysOf_of_findEntry hfind
      have hzero : countSettles log id = 0 := by
        by_contra hnz
        exact absurd hmemk (hgone id (Nat.pos_of_ne_zero hnz)).1
      have hstate : (handleSingle s (.response id result err)).fst
          = { s with pending := removeEntry s.pending id,
                     timers := removeEntry s.timers id } := by
        rcases err with _ | e <;> simp [handleSingle, hfind]
      have heff : ∀ i, countSettles (handleSingle s (.response id result err)).snd i
          = if id = i then 1 else 0 := by
        intro i
        rcases err with _ | e
        · simp [handleSingle, hfind, countSettles_resolved]
        · simp [handleSingle, hfind, countSettles_rejected]
      have hinv : Invariant (handleSingle s (.response id result err)).fst := by
        rw [hstate]
        refine ⟨?_, ?_, ?_⟩
        · intro i hi
          exact hbound i ((keysOf_removeEntry_sublist s.pending id).mem hi)
        · exact hnodup.sublist (keysOf_removeEntry_sublist s.pending id)
        · intro p hp
          obtain ⟨hpmem, hpne⟩ := mem_removeEntry hp
          rw [findEntry_removeEntry_ne hpne]
          exact htimer p hpmem
      refine ⟨hinv, ?_, ?_⟩
      · intro i
        rw [countSettles_append, heff i]
        by_cases hid : id = i
        · subst hid
          rw [hzero]
          simp
        · have := hcount i
          simp [hid]
          omega
      · intro i hi
        rw [countSettles_append, heff i] at hi
        by_cases hid : id = i
        · subst hid
          constructor
          · rw [hstate]
            intro hmem
            obtain ⟨v, hv⟩ := findEntry_isSome_of_mem_keysOf hmem
            rw [findEntry_removeEntry_self] at hv
            exact Option.noConfusion hv
          · rw [hstate]
            exact hbound id hmemk
        · have hold := hgone i (by simpa [hid] using hi)
          refine ⟨?_, by rw [hstate]; exact hold.2⟩
          rw [hstate]
          intro hmem
          exact hold.1 ((keysOf_removeEntry_sublist s.pending id).mem hmem)

theorem handleMany_good {s : ClientState} {log : List Effect}
    (h : GoodLog s log) (ms : List InMsg) :
    GoodLog (handleMany s ms).fst (log ++ (handleMany s ms).snd) := by
  induction ms generalizing s log with
  | nil => simpa [handleMany] using h
  | cons m rest ih =>
      have h1 := handleSingle_good h m
      have h2 := ih h1
      simpa [handleMany, List.append_assoc] using h2

theorem requestStep_good {s : ClientState} {log : List Effect}
    (h : GoodLog s log) (method : String) :
    GoodLog (requestStep s method).fst (log ++ (requestStep s method).snd) := by
  obtain ⟨⟨hbound, hnodup, htimer⟩, hcount, hgone⟩ := h
  have hfresh : s.requestId + 1 ∉ pendingIds s := by
    intro hmem
    exact absurd (hbound _ hmem) (by omega)
  refine ⟨⟨?_, ?_, ?_⟩, ?_, ?_⟩
  · intro i hi
    simp only [requestStep, pendingIds] at hi ⊢
    rw [keysOf_append] at hi
    rcases List.mem_append.mp hi with hi | hi
    · exact Nat.le_succ_of_le (hbound i hi)
    · simp [keysOf] at hi
      omega
  · simp only [requestStep, pendingIds]
    rw [keysOf_append]
    refine List.Nodup.append hnodup (by simp [keysOf]) ?_
    intro a ha hb
    simp [keysOf] at hb
    subst hb
    exact hfresh ha
  · intro p hp
    simp only [requestStep] at hp ⊢
    rcases List.mem_append.mp hp with hp | hp
    · exact findEntry_append_left (htimer p hp)
    · simp at hp
      obtain ⟨h1, h2⟩ : p.fst = s.requestId + 1 ∧ p.snd = method := by
        rcases p with ⟨a, b⟩
        simpa using hp
      rw [h1, h2]
      rw [findEntry_append_right (findEntry_eq_none hfresh)]
      simp [findEntry_cons]
  · intro i
    simpa [requestStep, countSettles_append] using hcount i
  · intro i hi
    simp only [requestStep, countSettles_append, countSettles_nil] at hi
    have hold := hgone i (by simpa using hi)
    refine ⟨?_, ?_⟩
    · simp only [requestStep, pendingIds]
      rw [keysOf_append]
      intro hmem
      rcases List.mem_append.mp hmem with hm | hm
      · exact hold.1 hm
      · simp [keysOf] at hm
        omega
    · simp only [requestStep]
      omega

theorem batchStep_good {s : ClientState} {log : List Effect}
    (h : GoodLog s log) (reqs : List (String × Json)) :
    GoodLog (batchStep s reqs).fst (log ++ (batchStep s reqs).snd) := by
  obtain ⟨⟨hbound, hnodup, htimer⟩, hcount, hgone⟩ := h
  have hkeys : pendingIds (batchStep s reqs).fst
      = keysOf s.pending ++ List.range' (s.requestId + 1) reqs.length := by
    simp only [batchStep, pendingIds]
    rw [keysOf_append, keysOf_batchEntries]
  refine ⟨⟨?_, ?_, ?_⟩, ?_, ?_⟩
  · intro i hi
    rw [hkeys] at hi
    simp only [batchStep]
    rcases List.mem_append.mp hi with hi | hi
    · exact Nat.le_trans (hbound i hi) (Nat.le_add_right _ _)
    · have := (List.mem_range'_1).mp hi
      omega
  · rw [hkeys]
    refine List.Nodup.append hnodup (List.nodup_range' _ _ 1) ?_
    intro a ha hb
    have h1 := hbound a ha
    have h2 := (List.mem_range'_1).mp hb
    omega
  · intro p hp
    simp only [batchStep] at hp ⊢
    exact findEntry_append_left (htimer p hp)
  · intro i
    simpa [batchStep, countSettles_append] using hcount i
  · intro i hi
    simp only [batchStep, countSettles_append, countSettles_nil] at hi
    have hold := hgone i (by simpa using hi)
    refine ⟨?_, by simp only [batchStep]; omega⟩
    rw [hkeys]
    intro hmem
    rcases List.mem_append.mp hmem with hm | hm
    · exact hold.1 hm
    · have := (List.mem_range'_1).mp hm
      omega

theorem timeoutStep_good {s : ClientState} {log : List Effect}
    (h : GoodLog s log) (id : Nat) :
    GoodLog (timeoutStep s id).fst (log ++ (timeoutStep s id).snd) := by
  obtain ⟨⟨hbound, hnodup, htimer⟩, hcount, hgone⟩ := h
  rcases hfind : findEntry s.timers id with _ | method
  · simpa [timeoutStep, hfind] using ⟨⟨hbound, hnodup, htimer⟩, hcount, hgone⟩
  · have hpend : findEntry s.pending id = some ⟨PKind.fromRequest, method⟩ :=
      htimer (id, method) (mem_of_findEntry hfind)
    have hmemk : id ∈ pendingIds s := mem_keysOf_of_findEntry hpend
    have hzero : countSettles log id = 0 := by
      by_contra hnz
      exact absurd hmemk (hgone id (Nat.pos_of_ne_zero hnz)).1
    have hstate : (timeoutStep s id).fst
        = { s with pending := removeEntry s.pending id,
                   timers := removeEntry s.timers id } := by
      simp [timeoutStep, hfind]
    have heff : (timeoutStep s id).snd = [.settle (.rejected id (timeoutMsg method))] := by
      simp [timeoutStep, hfind]
    refine ⟨?_, ?_, ?_⟩
    · rw [hstate]
      refine ⟨?_, ?_, ?_⟩
      · intro i hi
        exact hbound i ((keysOf_removeEntry_sublist s.pending id).mem hi)
      · exact hnodup.sublist (keysOf_removeEntry_sublist s.pending id)
      · intro p hp
        obtain ⟨hpmem, hpne⟩ := mem_removeEntry hp
        rw [findEntry_removeEntry_ne hpne]
        exact htimer p hpmem
    · intro i
      rw [countSettles_append, heff, countSettles_rejected]
      by_cases hid : id = i
      · subst hid
        rw [hzero]
        simp
      · have := hcount i
        simp [hid]
        omega
    · intro i hi
      rw [countSettles_append, heff, countSettles_rejected] at hi
      by_cases hid : id = i
      · subst hid
        constructor
        · rw [hstate]
          intro hmem
          obtain ⟨v, hv⟩ := findEntry_isSome_of_mem_keysOf hmem
          rw [findEntry_removeEntry_self] at hv
          exact Option.noConfusion hv
        · rw [hstate]
          exact hbound id hmemk
      · have hold := hgone i (by simpa [hid] using hi)
        refine ⟨?_, by rw [hstate]; exact hold.2⟩
        rw [hstate]
        intro hmem
        exact hold.1 ((keysOf_removeEntry_sublist s.pending id).mem hmem)

/-! ### `disconnect()` clears every armed timer -/

theorem mem_clearTimersOf {ts : List (Nat × String)} {ps : List (Nat × PEntry)}
    {p : Nat × String} (h : p ∈ clearTimersOf ts ps) : p ∈ ts := by
  induction ps generalizing ts with
  | nil => simpa [clearTimersOf] using h
  | cons q rest ih =>
      obtain ⟨a, e⟩ := q
      rw [clearTimersOf] at h
      by_cases hk : e.kind = PKind.fromRequest
      · rw [if_pos hk] at h
        exact (mem_removeEntry (ih h)).1
      · rw [if_neg hk] at h
        exact ih h

theorem not_mem_clearTimersOf {ts : List (Nat × String)} {ps : List (Nat × PEntry)}
    {id : Nat} {e : PEntry} (hmem : (id, e) ∈ ps) (hk : e.kind = PKind.fromRequest)
    (m : String) : (id, m) ∉ clearTimersOf ts ps := by
  induction ps generalizing ts with
  | nil => simp at hmem
  | cons q rest ih =>
      obtain ⟨a, e'⟩ := q
      rw [clearTimersOf]
      rcases List.mem_cons.mp hmem with hq | hq
      · obtain ⟨rfl, rfl⟩ : a = id ∧ e' = e := by
          have := Prod.mk.injEq id e a e' ▸ hq
          exact ⟨this.1.symm, this.2.symm⟩
        rw [if_pos hk]
        intro hcontra
        have := mem_removeEntry (mem_clearTimersOf hcontra)
        exact this.2 rfl
      · exact fun hcontra => ih hq hcontra

theorem clearTimersOf_eq_nil {ts : List (Nat × String)} {ps : List (Nat × PEntry)}
    (h : ∀ p ∈ ts, findEntry ps p.fst = some ⟨PKind.fromRequest, p.snd⟩) :
    clearTimersOf ts ps = [] := by
  rw [List.eq_nil_iff_forall_not_mem]
  rintro ⟨id, m⟩ hmem
  have hts := mem_clearTimersOf hmem
  have hfind := h (id, m) hts
  have hps := mem_of_findEntry hfind
  exact not_mem_clearTimersOf hps rfl m hmem

theorem disconnectStep_good {s : ClientState} {log : List Effect}
    (h : GoodLog s log) :
    GoodLog (disconnectStep s).fst (log ++ (disconnectStep s).snd) := by
  obtain ⟨⟨hbound, hnodup, htimer⟩, hcount, hgone⟩ := h
  have htnil : clearTimersOf s.timers s.pending = [] := clearTimersOf_eq_nil htimer
  have hcnt : ∀ i, countSettles (disconnectStep s).snd i
      = (keysOf s.pending).count i := by
    intro i
    simp only [disconnectStep]
    exact countSettles_map_rejected s.pending connClosedMsg i
  refine ⟨⟨?_, ?_, ?_⟩, ?_, ?_⟩
  · intro i hi
    simp [disconnectStep, pendingIds, keysOf] at hi
  · simp [disconnectStep, pendingIds, keysOf]
  · intro p hp
    simp only [disconnectStep, htnil] at hp
    simp at hp
  · intro i
    rw [countSettles_append, hcnt i]
    by_cases hmem : i ∈ keysOf s.pending
    · have h0 : countSettles log i = 0 := by
        by_contra hnz
        exact absurd hmem (hgone i (Nat.pos_of_ne_zero hnz)).1
      have h1 : (keysOf s.pending).count i ≤ 1 :=
        List.nodup_iff_count_le_one.mp hnodup i
      omega
    · rw [List.count_eq_zero.mpr hmem]
      simpa using hcount i
  · intro i hi
    constructor
    · simp [disconnectStep, pendingIds, keysOf]
    · rw [countSettles_append, hcnt i] at hi
      simp only [disconnectStep]
      by_cases hmem : i ∈ keysOf s.pending
      · exact hbound i hmem
      · rw [List.count_eq_zero.mpr hmem] at hi
        exact (hgone i (by omega)).2

theorem wsCloseStep_fields (s : ClientState) :
    (wsCloseStep s).fst.pending = s.pending ∧ (wsCloseStep s).fst.timers = s.timers ∧
    (wsCloseStep s).fst.requestId = s.requestId ∧ (wsCloseStep s).snd = [] := by
  rw [wsCloseStep]
  split
  · exact ⟨rfl, rfl, rfl, rfl⟩
  · exact ⟨rfl, rfl, rfl, rfl⟩

theorem wsCloseStep_good {s : ClientState} {log : List Effect}
    (h : GoodLog s log) :
    GoodLog (wsCloseStep s).fst (log ++ (wsCloseStep s).snd) := by
  obtain ⟨⟨hbound, hnodup, htimer⟩, hcount, hgone⟩ := h
  obtain ⟨h1, h2, h3, h4⟩ := wsCloseStep_fields s
  refine ⟨⟨?_, ?_, ?_⟩, ?_, ?_⟩
  · intro i hi
    rw [pendingIds, h1] at hi
    rw [h3]
    exact hbound i hi
  · rw [pendingIds, h1]
    exact hnodup
  · intro p hp
    rw [h2] at hp
    rw [h1]
    exact htimer p hp
  · intro i
    rw [h4]
    simpa using hcount i
  · intro i hi
    rw [h4] at hi
    have hold := hgone i (by simpa using hi)
    rw [pendingIds, h1, h3]
    exact hold

theorem step_good {s : ClientState} {log : List Effect}
    (h : GoodLog s log) (e : Event) :
    GoodLog (step s e).fst (log ++ (step s e).snd) := by
  match e with
  | .req method p => exact requestStep_good h method
  | .batchReq reqs => exact batchStep_good h reqs
  | .recv (.single m) => exact handleSingle_good h m
  | .recv (.batchIn ms) => exact handleMany_good h ms
  | .timeoutFire id => exact timeoutStep_good h id
  | .disconnectCall => exact disconnectStep_good h
  | .wsClose => exact wsCloseStep_good h

theorem run_good {s : ClientState} {log : List Effect}
    (h : GoodLog s log) (evs : List Event) :
    GoodLog (run s evs).fst (log ++ (run s evs).snd) := by
  induction evs generalizing s log with
  | nil => simpa [run] using h
  | cons e rest ih =>
      have h1 := step_good h e
      have h2 := ih h1
      simpa [run, List.append_assoc] using h2

theorem initState_good (b : Bool) : GoodLog (initState b) [] := by
  refine ⟨⟨?_, ?_, ?_⟩, ?_, ?_⟩ <;> simp [initState, pendingIds, keysOf, countSettles, Invariant]

/-! ### Assigned-id bookkeeping (for id uniqueness) -/

theorem handleSingle_requestId (s : ClientState) (m : InMsg) :
    (handleSingle s m).fst.requestId = s.requestId := by
  match m with
  | .notification _ _ => rfl
  | .response id result err =>
      rcases hfind : findEntry s.pending id with _ | entry
      · simp [handleSingle, hfind]
      · rcases err with _ | e <;> simp [handleSingle, hfind]

theorem handleMany_requestId (s : ClientState) (ms : List InMsg) :
    (handleMany s ms).fst.requestId = s.requestId := by
  induction ms generalizing s with
  | nil => rfl
  | cons m rest ih =>
      rw [handleMany]
      rw [ih, handleSingle_requestId]

theorem step_requestId_mono (s : ClientState) (e : Event) :
    s.requestId ≤ (step s e).fst.requestId := by
  match e with
  | .req method p => simp [step, requestStep]
  | .batchReq reqs => simp [step, batchStep]
  | .recv (.single m) => rw [step, handleMessage, handleSingle_requestId]
  | .recv (.batchIn ms) => rw [step, handleMessage, handleMany_requestId]
  | .timeoutFire id =>
      rcases hfind : findEntry s.timers id with _ | m <;> simp [step, timeoutStep, hfind]
  | .disconnectCall => simp [step, disconnectStep]
  | .wsClose =>
      have := (wsCloseStep_fields s).2.2.1
      rw [step, this]

theorem run_requestId_mono (s : ClientState) (evs : List Event) :
    s.requestId ≤ (run s evs).fst.requestId := by
  induction evs generalizing s with
  | nil => exact Nat.le_refl _
  | cons e rest ih =>
      rw [run]
      exact Nat.le_trans (step_requestId_mono s e) (ih (step s e).fst)

theorem eventAssigned_bounds (s : ClientState) (e : Event) :
    ∀ id ∈ eventAssigned s e, s.requestId < id ∧ id ≤ (step s e).fst.requestId := by
  intro id hid
  match e with
  | .req method p =>
      simp [eventAssigned] at hid
      subst hid
      simp [step, requestStep]
  | .batchReq reqs =>
      rw [eventAssigned] at hid
      have := (List.mem_range'_1).mp hid
      simp only [step, batchStep]
      omega
  | .recv m => simp [eventAssigned] at hid
  | .timeoutFire i => simp [eventAssigned] at hid
  | .disconnectCall => simp [eventAssigned] at hid
  | .wsClose => simp [eventAssigned] at hid

theorem runAssigned_lb (s : ClientState) (evs : List Event) :
    ∀ id ∈ runAssigned s evs, s.requestId < id := by
  induction evs generalizing s with
  | nil => simp [runAssigned]
  | cons e rest ih =>
      intro id hid
      rw [runAssigned] at hid
      rcases List.mem_append.mp hid with h | h
      · exact (eventAssigned_bounds s e id h).1
      · exact Nat.lt_of_le_of_lt (step_requestId_mono s e) (ih (step s e).fst id h)

theorem eventAssigned_pairwise (s : ClientState) (e : Event) :
    (eventAssigned s e).Pairwise (· < ·) := by
  match e with
  | .req method p => simp [eventAssigned]
  | .batchReq reqs => exact List.pairwise_lt_range' _ _
  | .recv m => simp [eventAssigned]
  | .timeoutFire i => simp [eventAssigned]
  | .disconnectCall => simp [eventAssigned]
  | .wsClose => simp [eventAssigned]

theorem runAssigned_pairwise (s : ClientState) (evs : List Event) :
    (runAssigned s evs).Pairwise (· < ·) := by
  induction evs generalizing s with
  | nil => simp [runAssigned]
  | cons e rest ih =>
      rw [runAssigned]
      refine List.pairwise_append.mpr ⟨eventAssigned_pairwise s e, ih (step s e).fst, ?_⟩
      intro a ha b hb
      have h1 := (eventAssigned_bounds s e a ha).2
      have h2 := runAssigned_lb (step s e).fst rest b hb
      omega

theorem invariant_step {s : ClientState} (h : Invariant s) (e : Event) :
    Invariant (step s e).fst := by
  have hg : GoodLog s [] := ⟨h, fun id => by simp [countSettles_nil],
    fun id hid => absurd hid (by simp [countSettles_nil])⟩
  exact (step_good hg e).1

theorem invariant_run {s : ClientState} (h : Invariant s) (evs : List Event) :
    Invariant (run s evs).fst := by
  induction evs generalizing s with
  | nil => simpa [run] using h
  | cons e rest ih =>
      rw [run]
      exact ih (invariant_step h e)

/-! ### Batch delivery: correlation is by id, arrival order is irrelevant -/

theorem deliver_log (st : ClientState) (resps : List (Nat × Option Json))
    (hk : (keysOf resps).Nodup)
    (hp : ∀ p ∈ resps, ∃ e, findEntry st.pending p.fst = some e) :
    (run st (resps.map respEvent)).snd
      = resps.map (fun p => Effect.settle (.resolved p.fst p.snd)) := by
  induction resps generalizing st with
  | nil => rfl
  | cons q rest ih =>
      obtain ⟨i, v⟩ := q
      obtain ⟨e, he⟩ := hp (i, v) (List.mem_cons_self _ _)
      have hstep : step st (respEvent (i, v))
          = ({ st with pending := removeEntry st.pending i,
                       timers := removeEntry st.timers i },
             [Effect.settle (.resolved i v)]) := by
        simp [respEvent, step, handleMessage, handleSingle, he]
      have hnotin : i ∉ keysOf rest := by
        rw [keysOf_cons] at hk
        exact (List.nodup_cons.mp hk).1
      have hrest : ∀ p ∈ rest,
          ∃ e', findEntry (removeEntry st.pending i) p.fst = some e' := by
        intro p hpmem
        have hne : p.fst ≠ i := by
          intro hcontra
          exact hnotin (hcontra ▸ List.mem_map_of_mem Prod.fst hpmem)
        rw [findEntry_removeEntry_ne hne]
        exact hp p (List.mem_cons_of_mem _ hpmem)
      have hknd : (keysOf rest).Nodup := by
        rw [keysOf_cons] at hk
        exact (List.nodup_cons.mp hk).2
      rw [List.map_cons, run, hstep]
      simpa using ih _ hknd hrest

theorem outcomeAux_resolved_of_mem (resps : List (Nat × Option Json))
    (hk : (keysOf resps).Nodup) {i : Nat} {v : Option Json}
    (hm : (i, v) ∈ resps) :
    ∀ t0, ∃ t, outcomeAux i t0
        (resps.map (fun p => Effect.settle (.resolved p.fst p.snd)))
      = .resolvedAt t v := by
  induction resps with
  | nil => simp at hm
  | cons q rest ih =>
      obtain ⟨a, b⟩ := q
      intro t0
      rw [keysOf_cons, List.nodup_cons] at hk
      by_cases ha : a = i
      · subst ha
        have hbv : b = v := by
          rcases List.mem_cons.mp hm with h | h
          · exact ((Prod.mk.injEq _ _ _ _ ▸ h.symm : _ ∧ _).2)
          · exact absurd (List.mem_map_of_mem Prod.fst h) hk.1
        subst hbv
        exact ⟨t0, by simp [outcomeAux]⟩
      · have hm' : (i, v) ∈ rest := by
          rcases List.mem_cons.mp hm with h | h
          · exact absurd ((Prod.mk.injEq _ _ _ _ ▸ h : _ ∧ _).1.symm) ha
          · exact h
        obtain ⟨t, ht⟩ := ih hk.2 hm' (t0 + 1)
        exact ⟨t, by simpa [outcomeAux, ha] using ht⟩

theorem promiseAll_pointwise (log : List Effect) :
    ∀ (ids : List Nat) (vals : List (Option Json)),
      ids.length = vals.length →
      (∀ p ∈ ids.zip vals, ∃ t, outcomeOf log p.fst = .resolvedAt t p.snd) →
      ∃ T, earliestRejection (ids.map (outcomeOf log)) = none ∧
           allResolved (ids.map (outcomeOf log)) = some (T, vals) ∧
           ∀ o ∈ ids.map (outcomeOf log), ptime o ≤ T := by
  intro ids
  induction ids with
  | nil =>
      intro vals hlen _
      obtain rfl : vals = [] := by
        cases vals with
        | nil => rfl
        | cons v vs => simp at hlen
      exact ⟨0, rfl, rfl, by simp⟩
  | cons i rest ih =>
      intro vals hlen hpt
      cases vals with
      | nil => simp at hlen
      | cons v vs =>
          obtain ⟨t0, ht0⟩ := hpt (i, v) (by simp [List.zip_cons_cons])
          obtain ⟨T, hER, hAR, hPT⟩ := ih vs (by simpa using hlen)
            (fun p hp => hpt p (by simp [List.zip_cons_cons]; right; exact hp))
          refine ⟨max t0 T, ?_, ?_, ?_⟩
          · rw [List.map_cons, ht0]
            simpa [earliestRejection] using hER
          · rw [List.map_cons, ht0]
            simp [allResolved, hAR]
          · intro o ho
            rw [List.map_cons, ht0] at ho
            rcases List.mem_cons.mp ho with h | h
            · subst h
              simp [ptime]
            · exact Nat.le_trans (hPT o h) (Nat.le_max_right _ _)

theorem findEntry_batchEntries_isSome (reqs : List (String × Json)) (base : Nat)
    {k : Nat} (h : k ∈ List.range' (base + 1) reqs.length) :
    ∃ e, findEntry (batchEntries base reqs) k = some e :=
  findEntry_isSome_of_mem_keysOf (by rw [keysOf_batchEntries]; exact h)

/-! ### No step ever dispatches a subscription callback -/

theorem handleSingle_no_callback (s : ClientState) (m : InMsg) :
    ∀ x ∈ (handleSingle s m).snd, x.isCallback = false := by
  match m with
  | .notification mth p => simp [handleSingle]
  | .response id result err =>
      rcases hfind : findEntry s.pending id with _ | entry
      · simp [handleSingle, hfind, Effect.isCallback]
      · rcases err with _ | e <;> simp [handleSingle, hfind, Effect.isCallback]

theorem handleMany_no_callback (s : ClientState) (ms : List InMsg) :
    ∀ x ∈ (handleMany s ms).snd, x.isCallback = false := by
  induction ms generalizing s with
  | nil => simp [handleMany]
  | cons m rest ih =>
      intro x hx
      rw [handleMany] at hx
      rcases List.mem_append.mp hx with h | h
      · exact handleSingle_no_callback s m x h
      · exact ih (handleSingle s m).fst x h

theorem step_no_callback (s : ClientState) (e : Event) :
    ∀ x ∈ (step s e).snd, x.isCallback = false := by
  match e with
  | .req method p => simp [step, requestStep]
  | .batchReq reqs => simp [step, batchStep]
  | .recv (.single m) => exact handleSingle_no_callback s m
  | .recv (.batchIn ms) => exact handleMany_no_callback s ms
  | .timeoutFire id =>
      rcases hfind : findEntry s.timers id with _ | m <;>
        simp [step, timeoutStep, hfind, Effect.isCallback]
  | .disconnectCall =>
      intro x hx
      simp only [step, disconnectStep] at hx
      obtain ⟨p, _, rfl⟩ := List.mem_map.mp hx
      rfl
  | .wsClose =>
      have := (wsCloseStep_fields s).2.2.2
      rw [step, this]
      simp

theorem run_no_callback (s : ClientState) (evs : List Event) :
    ∀ x ∈ (run s evs).snd, x.isCallback = false := by
  induction evs generalizing s with
  | nil => simp [run]
  | cons e rest ih =>
      intro x hx
      rw [run] at hx
      rcases List.mem_append.mp hx with h | h
      · exact step_no_callback s e x h
      · exact ih (step s e).fst x h

/-! ### Concrete fixtures -/

theorem connState_invariant : Invariant connState := by
  refine ⟨?_, ?_, ?_⟩ <;> simp [connState, pendingIds, keysOf]

/-! ### Claims -/

/-- C1, counterexample: with `request("ping", {})` outstanding, the socket
`onclose` handler leaves the pending entry in the Correlation Table and
settles nothing at all — the promise is not rejected with a
connection-closed error and the entry is not removed, contrary to the
claim. -/
theorem c1_counterexample :
    (run connState c1Events).fst.pending = [(1, ⟨PKind.fromRequest, "ping"⟩)] ∧
    (run connState c1Events).snd = [] := ⟨rfl, rfl⟩

/-- C1, amended: an unexpected close while a `request()` is outstanding
settles nothing and leaves the whole pending map (and the armed timeout)
in place; the promise is rejected only later — by its own timeout with
the timeout error, or by an explicit `disconnect()` with the
connection-closed error. -/
theorem c1_close_leaves_pending (s : ClientState) (id : Nat) (m : String)
    (h : findEntry s.timers id = some m) :
    (step s .wsClose).fst.pending = s.pending ∧
    (step s .wsClose).snd = [] ∧
    (step (step s .wsClose).fst (.timeoutFire id)).snd
      = [.settle (.rejected id (timeoutMsg m))] ∧
    (step (step s .wsClose).fst .disconnectCall).snd
      = s.pending.map (fun p => Effect.settle (.rejected p.fst connClosedMsg)) := by
  obtain ⟨h1, h2, _, h4⟩ := wsCloseStep_fields s
  refine ⟨h1, h4, ?_, ?_⟩
  · simp [step, timeoutStep, h2, h]
  · simp [step, disconnectStep, h1]

/-- C1, witness for `c1_close_leaves_pending` at the `c1Events` state. -/
theorem c1_witness :
    findEntry (run connState [Event.req "ping" (Json.obj [])]).fst.timers 1 = some "ping" ∧
    ((step (run connState [Event.req "ping" (Json.obj [])]).fst .wsClose).fst.pending
        = (run connState [Event.req "ping" (Json.obj [])]).fst.pending ∧
      (step (run connState [Event.req "ping" (Json.obj [])]).fst .wsClose).snd = [] ∧
      (step (step (run connState [Event.req "ping" (Json.obj [])]).fst .wsClose).fst
          (.timeoutFire 1)).snd = [.settle (.rejected 1 (timeoutMsg "ping"))] ∧
      (step (step (run connState [Event.req "ping" (Json.obj [])]).fst .wsClose).fst
          .disconnectCall).snd
        = (run connState [Event.req "ping" (Json.obj [])]).fst.pending.map
            (fun p => Effect.settle (.rejected p.fst connClosedMsg))) :=
  ⟨rfl, c1_close_leaves_pending (run connState [Event.req "ping" (Json.obj [])]).fst 1 "ping" rfl⟩

/-- C9: an incoming message with method and params but no `id` field (a
notification) leaves the client state — in particular the whole
Correlation Table — untouched and settles nothing. -/
theorem c9_notification_touches_nothing (s : ClientState) (method : String) (params : Json) :
    step s (.recv (.single (.notification method params))) = (s, []) := rfl

/-- C3, counterexample: in the scenario of a successful
`subscribe("setup_subscribe", …)` whose result contains
`{subscription_id: "abc"}` followed by an unsolicited `setup_update`
notification, the run's effect log contains zero callback invocations —
not exactly one as the claim states (the TypeScript client has no
notification router and registers no callback). -/
theorem c3_counterexample :
    outcomeOf (run connState c3Events).snd 1
      = .resolvedAt 0 (some (Json.obj [("subscription_id", Json.str "abc")])) ∧
    ((run connState c3Events).snd.filter Effect.isCallback).length = 0 := ⟨rfl, rfl⟩

/-- C3, amended: `SetupClient.subscribe` only performs the
`setup_subscribe` request and registers no callback; the base client's
notification branch ignores every id-less message (no state change, no
dispatch), so no run of the client ever invokes a subscription
callback. -/
theorem c3_no_callback_dispatch (s : ClientState) (method : String) (params : Json)
    (evs : List Event) (x : Effect) (hx : x ∈ (run s evs).snd) :
    handleSingle s (.notification method params) = (s, []) ∧
    x.isCallback = false :=
  ⟨rfl, run_no_callback s evs x hx⟩

/-- C3, witness for `c3_no_callback_dispatch` on the subscribe scenario. -/
theorem c3_witness :
    Effect.settle (.resolved 1 (some (Json.obj [("subscription_id", Json.str "abc")])))
        ∈ (run connState c3Events).snd ∧
    (handleSingle connState (.notification "setup_update" Json.null) = (connState, []) ∧
      (Effect.settle
        (.resolved 1 (some (Json.obj [("subscription_id", Json.str "abc")])))).isCallback
        = false) :=
  ⟨List.mem_cons_self _ _,
   c3_no_callback_dispatch connState "setup_update" Json.null c3Events _
     (List.mem_cons_self _ _)⟩

/-- C2, counterexample: `batch` combines its element promises with
`Promise.all`, which settles (rejects) as soon as the first element
rejects — here the combined result is already rejected while the second
element of the batch is still unsettled, contrary to the claim that the
combined result settles only after every element has resolved or
rejected. -/
theorem c2_counterexample :
    promiseAll [outcomeOf (run connState c2Events).snd 1,
                outcomeOf (run connState c2Events).snd 2]
      = .rejectedFirst 0 "Invalid params (code: -32602)" ∧
    outcomeOf (run connState c2Events).snd 2 = .unsettled := ⟨rfl, rfl⟩

/-- C2, amended: on the all-success path the claim holds — whatever order
the responses for a `batch(reqs)` arrive in (any permutation of the
assigned ids paired with their result values), the combined `Promise.all`
result resolves with the values in the order the requests were supplied,
and only at a time `T` no earlier than every element's own settlement;
when an element rejects, the combined result instead rejects with the
first rejection (see `c2_counterexample`). -/
theorem c2_batch_fanin (s : ClientState) (reqs : List (String × Json))
    (vals : List (Option Json)) (resps : List (Nat × Option Json))
    (hinv : Invariant s) (hlen : vals.length = reqs.length)
    (hperm : resps.Perm ((batchIds s reqs).zip vals)) :
    ∃ T, promiseAll (batchOutcomes s reqs resps) = .resolvedAll T vals ∧
      ∀ o ∈ batchOutcomes s reqs resps, ptime o ≤ T := by
  obtain ⟨hbound, _, _⟩ := hinv
  have hidlen : (batchIds s reqs).length = vals.length := by
    rw [batchIds, List.length_range', hlen]
  have hkeys : keysOf resps = (resps.map Prod.fst) := rfl
  have hkeysperm : (keysOf resps).Perm (batchIds s reqs) := by
    rw [hkeys]
    have := hperm.map Prod.fst
    rwa [List.map_fst_zip _ _ (le_of_eq hidlen)] at this
  have hknodup : (keysOf resps).Nodup :=
    hkeysperm.nodup_iff.mpr (by rw [batchIds]; exact List.nodup_range' _ _ 1)
  -- each response id is freshly registered by the batch
  have hpendfind : ∀ p ∈ resps,
      ∃ e, findEntry (step s (.batchReq reqs)).fst.pending p.fst = some e := by
    intro p hpmem
    have hzip := hperm.mem_iff.mp hpmem
    have hfst : p.fst ∈ batchIds s reqs := by
      have := List.of_mem_zip (by rwa [← Prod.mk.eta (p := p)] at hzip)
      exact this.1
    have hrange : p.fst ∈ List.range' (s.requestId + 1) reqs.length := by
      rwa [batchIds] at hfst
    have hgt : s.requestId < p.fst := ((List.mem_range'_1).mp hrange).1
    have hnone : findEntry s.pending p.fst = none := by
      apply findEntry_eq_none
      intro hmem
      exact absurd (hbound _ hmem) (by omega)
    obtain ⟨e, he⟩ := findEntry_batchEntries_isSome reqs s.requestId hrange
    refine ⟨e, ?_⟩
    simp only [step, batchStep]
    rw [findEntry_append_right hnone, he]
  have hlog : batchRun s reqs resps
      = resps.map (fun p => Effect.settle (.resolved p.fst p.snd)) := by
    rw [batchRun]
    exact deliver_log _ resps hknodup hpendfind
  have hpt : ∀ p ∈ (batchIds s reqs).zip vals,
      ∃ t, outcomeOf (batchRun s reqs resps) p.fst = .resolvedAt t p.snd := by
    intro p hpzip
    have hpmem : p ∈ resps := hperm.mem_iff.mpr hpzip
    rw [hlog, outcomeOf]
    exact outcomeAux_resolved_of_mem resps hknodup
      (by rwa [Prod.mk.eta] : (p.fst, p.snd) ∈ resps) 0
  obtain ⟨T, hER, hAR, hPT⟩ :=
    promiseAll_pointwise (batchRun s reqs resps) (batchIds s reqs) vals hidlen hpt
  refine ⟨T, ?_, ?_⟩
  · simp only [batchOutcomes, promiseAll, hER, hAR]
  · intro o ho
    exact hPT o (by rwa [batchOutcomes] at ho)

/-- C2, witness for `c2_batch_fanin`: a two-element batch whose responses
arrive in reversed order still resolves in input order. -/
theorem c2_witness :
    Invariant connState ∧ c2Vals.length = c2Reqs.length ∧
    c2Resps.Perm ((batchIds connState c2Reqs).zip c2Vals) ∧
    (∃ T, promiseAll (batchOutcomes connState c2Reqs c2Resps) = .resolvedAll T c2Vals ∧
       ∀ o ∈ batchOutcomes connState c2Reqs c2Resps, ptime o ≤ T) :=
  have hperm : c2Resps.Perm ((batchIds connState c2Reqs).zip c2Vals) := by
    have h : (batchIds connState c2Reqs).zip c2Vals
        = [(1, some (Json.str "A")), (2, some (Json.str "B"))] := rfl
    rw [c2Resps, h]
    exact List.Perm.swap _ _ _
  ⟨connState_invariant, rfl, hperm,
    c2_batch_fanin connState c2Reqs c2Vals c2Resps connState_invariant rfl hperm⟩

/-- C4, counterexample: the pending entry created for a `batch` element
has no timeout — no timer is armed for its id, so no expiry can ever
remove it or reject its promise (a `timeoutFire` for its id is a no-op),
contrary to the claim that every pending call including batch elements
carries its own timeout. -/
theorem c4_counterexample :
    c4State.pending = [(1, ⟨PKind.fromBatch, "setup_set"⟩)] ∧
    c4State.timers = [] ∧
    step c4State (.timeoutFire 1) = (c4State, []) := ⟨rfl, rfl, rfl⟩

/-- C4, amended: a pending call created by `request()` carries its own
timeout: when it expires the entry is removed from the Correlation Table
and the promise is rejected locally with the timeout error, and a later
response with that same id is a silent no-op (a logged warning only);
`batch()` elements, however, arm no timeout at all. -/
theorem c4_request_timeout_isolation (s : ClientState) (id : Nat) (m : String)
    (r : Option Json) (err : Option JrpcErrorV) (reqs : List (String × Json))
    (h : findEntry s.timers id = some m) :
    (step s (.timeoutFire id)).fst.pending = removeEntry s.pending id ∧
    findEntry (step s (.timeoutFire id)).fst.pending id = none ∧
    (step s (.timeoutFire id)).snd = [.settle (.rejected id (timeoutMsg m))] ∧
    handleSingle (step s (.timeoutFire id)).fst (.response id r err)
      = ((step s (.timeoutFire id)).fst, [.warnUnknownId id]) ∧
    (step s (.batchReq reqs)).fst.timers = s.timers := by
  have h1 : (step s (.timeoutFire id)).fst
      = { s with pending := removeEntry s.pending id,
                 timers := removeEntry s.timers id } := by
    simp [step, timeoutStep, h]
  have hnone : findEntry (step s (.timeoutFire id)).fst.pending id = none := by
    rw [h1]
    exact findEntry_removeEntry_self _ _
  refine ⟨by rw [h1], hnone, by simp [step, timeoutStep, h], ?_, by simp [step, batchStep]⟩
  simp [handleSingle, hnone]

/-- C4, witness for `c4_request_timeout_isolation` on a concrete
request. -/
theorem c4_witness :
    findEntry c4ReqState.timers 1 = some "a" ∧
    ((step c4ReqState (.timeoutFire 1)).fst.pending = removeEntry c4ReqState.pending 1 ∧
      findEntry (step c4ReqState (.timeoutFire 1)).fst.pending 1 = none ∧
      (step c4ReqState (.timeoutFire 1)).snd = [.settle (.rejected 1 (timeoutMsg "a"))] ∧
      handleSingle (step c4ReqState (.timeoutFire 1)).fst (.response 1 (some (Json.str "late")) none)
        = ((step c4ReqState (.timeoutFire 1)).fst, [.warnUnknownId 1]) ∧
      (step c4ReqState (.batchReq [("b", Json.null)])).fst.timers = c4ReqState.timers) :=
  ⟨rfl, c4_request_timeout_isolation c4ReqState 1 "a" (some (Json.str "late")) none
    [("b", Json.null)] rfl⟩

/-- C5: calling `disconnect()` on a connected client with the default
options clears the reconnect timer and sets the state to `disconnected`,
but the close event that `disconnect()`'s own `ws.close()` triggers still
runs the `onclose` handler (`this.ws = null` does not detach it), whose
`handleDisconnect` guard (`options.reconnect && state !== 'error'`)
passes because the state is `disconnected` — so a reconnect timer is
armed again after an explicit `disconnect()`, contradicting the claim
(and the stated purpose of `disconnect`).  Note also that an unexpected
close reaches the `disconnected` state too, so the state is neither
terminal nor reached only via `disconnect()`. -/
theorem c5_reconnect_after_disconnect :
    (step connState .disconnectCall).fst.reconnectTimerArmed = false ∧
    (step connState .disconnectCall).fst.wsState = WsState.disconnected ∧
    (run connState [.disconnectCall, .wsClose]).fst.reconnectTimerArmed = true ∧
    (step connState .wsClose).fst.wsState = WsState.disconnected :=
  ⟨rfl, rfl, rfl, rfl⟩

/-- C6: at-most-once settlement — along any run of the client from a
fresh instance, every request id's promise is settled (resolved or
rejected) at most once; and a response whose id is not in the Correlation
Table (duplicate or late) only logs a warning, changing nothing and
settling nothing. -/
theorem c6_at_most_once (b : Bool) (evs : List Event) :
    (∀ id, countSettles (run (initState b) evs).snd id ≤ 1) ∧
    (∀ (s : ClientState) (id : Nat) (r : Option Json) (err : Option JrpcErrorV),
        findEntry s.pending id = none →
        handleSingle s (.response id r err) = (s, [.warnUnknownId id])) := by
  constructor
  · intro id
    have := (run_good (initState_good b) evs).2.1 id
    simpa using this
  · intro s id r err hnone
    rcases err with _ | e <;> simp [handleSingle, hnone]

/-- C6, witness for `c6_at_most_once`: a duplicate response for id 1
settles it once, and a response for unknown id 7 is a pure warning. -/
theorem c6_witness :
    countSettles (run (initState true) [.req "a" Json.null,
        .recv (.single (.response 1 (some (Json.str "pong")) none)),
        .recv (.single (.response 1 (some (Json.str "pong")) none))]).snd 1 ≤ 1 ∧
    (findEntry connState.pending 7 = none ∧
      handleSingle connState (.response 7 none none) = (connState, [.warnUnknownId 7])) :=
  ⟨(c6_at_most_once true [.req "a" Json.null,
      .recv (.single (.response 1 (some (Json.str "pong")) none)),
      .recv (.single (.response 1 (some (Json.str "pong")) none))]).1 1,
   ⟨rfl, (c6_at_most_once true []).2 connState 7 none none rfl⟩⟩

/-- C7: `disconnect()` drains the Correlation Table — every pending call
is rejected with the "Connection closed" error (one rejection per entry,
in insertion order) and the table is empty afterwards. -/
theorem c7_drain_on_disconnect (s : ClientState) :
    (step s .disconnectCall).fst.pending = [] ∧
    (step s .disconnectCall).snd
      = s.pending.map (fun p => Effect.settle (.rejected p.fst connClosedMsg)) ∧
    ∀ id ∈ pendingIds s,
      Effect.settle (.rejected id connClosedMsg) ∈ (step s .disconnectCall).snd := by
  refine ⟨rfl, rfl, ?_⟩
  intro id hid
  rw [pendingIds, keysOf] at hid
  obtain ⟨p, hp, rfl⟩ := List.mem_map.mp hid
  exact List.mem_map_of_mem _ hp

/-- C7, witness for `c7_drain_on_disconnect` with three outstanding
requests. -/
theorem c7_witness :
    (2 ∈ pendingIds c7State) ∧
    ((step c7State .disconnectCall).fst.pending = [] ∧
      (step c7State .disconnectCall).snd
        = c7State.pending.map (fun p => Effect.settle (.rejected p.fst connClosedMsg)) ∧
      Effect.settle (.rejected 2 connClosedMsg) ∈ (step c7State .disconnectCall).snd) :=
  ⟨by decide, ⟨(c7_drain_on_disconnect c7State).1, (c7_drain_on_disconnect c7State).2.1,
    (c7_drain_on_disconnect c7State).2.2 2 (by decide)⟩⟩

/-- C8: the ids assigned by `++this.requestId` along any run — one per
`request()`, one per `batch()` element — are strictly increasing in
assignment order, hence pairwise distinct; and at the moment an event
assigns an id, that id is not among the ids still outstanding in the
Correlation Table. -/
theorem c8_id_uniqueness (s : ClientState) (evs : List Event) (hinv : Invariant s) :
    (runAssigned s evs).Pairwise (· < ·) ∧
    (runAssigned s evs).Nodup ∧
    ∀ pre e post, evs = pre ++ e :: post →
      ∀ id ∈ eventAssigned (run s pre).fst e, id ∉ pendingIds (run s pre).fst := by
  refine ⟨runAssigned_pairwise s evs,
    (runAssigned_pairwise s evs).imp (fun h => Nat.ne_of_lt h), ?_⟩
  intro pre e post _ id hid hmem
  have hgt := (eventAssigned_bounds (run s pre).fst e id hid).1
  have hb := (invariant_run hinv pre).1 id hmem
  omega

/-- C8, witness for `c8_id_uniqueness` on `c8Events`. -/
theorem c8_witness :
    Invariant connState ∧
    c8Events = [Event.req "a" Json.null]
      ++ Event.batchReq [("b", Json.null), ("c", Json.null)] :: [Event.req "d" Json.null] ∧
    2 ∈ eventAssigned (run connState [Event.req "a" Json.null]).fst
        (.batchReq [("b", Json.null), ("c", Json.null)]) ∧
    ((runAssigned connState c8Events).Pairwise (· < ·) ∧
      (runAssigned connState c8Events).Nodup ∧
      2 ∉ pendingIds (run connState [Event.req "a" Json.null]).fst) :=
  ⟨connState_invariant, rfl, by decide,
    ⟨(c8_id_uniqueness connState c8Events connState_invariant).1,
     (c8_id_uniqueness connState c8Events connState_invariant).2.1,
     (c8_id_uniqueness connState c8Events connState_invariant).2.2
        [Event.req "a" Json.null] (.batchReq [("b", Json.null), ("c", Json.null)])
        [Event.req "d" Json.null] rfl 2 (by decide)⟩⟩

/-- C10: when a pending id's response carries an `error` member, the
promise is rejected with the message combining the error's message and
code — even if a `result` member is also present (the `result` argument
`r` is arbitrary here); when `error` is absent the promise is resolved
with the `result` member, including `r = none` (resolving with
`undefined` when neither member is present). -/
theorem c10_error_precedence (s : ClientState) (id : Nat) (entry : PEntry)
    (r : Option Json) (e : JrpcErrorV) (h : findEntry s.pending id = some entry) :
    handleSingle s (.response id r (some e))
      = ({ s with pending := removeEntry s.pending id,
                  timers := removeEntry s.timers id },
         [.settle (.rejected id (serverErrMsg e.message e.code))]) ∧
    handleSingle s (.response id r none)
      = ({ s with pending := removeEntry s.pending id,
                  timers := removeEntry s.timers id },
         [.settle (.resolved id r)]) := by
  constructor
  · simp [handleSingle, h]
  · simp [handleSingle, h]

/-- C10, witness for `c10_error_precedence` on a concrete pending
request with both `result` and `error` present. -/
theorem c10_witness :
    findEntry c4ReqState.pending 1 = some ⟨PKind.fromRequest, "a"⟩ ∧
    (handleSingle c4ReqState
        (.response 1 (some (Json.str "ok")) (some ⟨-32602, "Invalid params", none⟩))
      = ({ c4ReqState with pending := removeEntry c4ReqState.pending 1,
                           timers := removeEntry c4ReqState.timers 1 },
         [.settle (.rejected 1 (serverErrMsg "Invalid params" (-32602)))]) ∧
    handleSingle c4ReqState (.response 1 (some (Json.str "ok")) none)
      = ({ c4ReqState with pending := removeEntry c4ReqState.pending 1,
                           timers := removeEntry c4ReqState.timers 1 },
         [.settle (.resolved 1 (some (Json.str "ok")))])) :=
  ⟨rfl, c10_error_precedence c4ReqState 1 ⟨PKind.fromRequest, "a"⟩ (some (Json.str "ok"))
      ⟨-32602, "Invalid params", none⟩ rfl⟩

end PxApi
